import Mathlib

/-!
A shallow embedding of the `capsules` packager/runtime (Rust) in Lean 4.

Bytes are modelled as `List Nat` (each entry intended `< 256`), machine
integers as `Nat`/`Int` with explicit bounds where overflow matters, and
fallible code as `Except`/`Option`.  File systems and directory trees are
modelled as explicit association lists / path sets.  The definitions follow
the source files `capsules_compiler/src/main.rs`, `capsules_runtime/src/main.rs`
and `capsules_lib/src/lib.rs`.
-/

namespace Capsules

/-- The shared error taxonomy, from `capsules_lib/src/lib.rs` (`enum Error`). -/
inductive ErrorM where
  | ProcessNotFound (name : String)
  | SupervisorCantBeFound
  | CouldNotStartUdpServer
  | NoData
  | InvalidPassword
  | InvalidDataFormat
  | CouldNotFindFile (path : String)
  | CouldNotReadFile (path : String)
  | CouldNotCreatePath (path : String)
  | InternalError
  | CouldNotWriteFile (path : String)
  | CouldNotKillProcess (name : String)
  | FailedToSpawnProcess (name : String)
  | CouldNotEncryptFile
  | UnsupportedTarget (triple : String)
  deriving DecidableEq, Repr

/-- `MAGIC_NUMBER_PLAIN = b"SETENV_P"` from `capsules_lib/src/lib.rs`. -/
def MAGIC_NUMBER_PLAIN : List Nat := [83, 69, 84, 69, 78, 86, 95, 80]

/-- `MAGIC_NUMBER_ENCRIPTED = b"SETENV_E"` from `capsules_lib/src/lib.rs`. -/
def MAGIC_NUMBER_ENCRIPTED : List Nat := [83, 69, 84, 69, 78, 86, 95, 69]

/-- `FOOTER_SIZE = 16` from `capsules_lib/src/lib.rs`. -/
def FOOTER_SIZE : Nat := 16

/-- Little-endian encoding of a 64-bit unsigned integer into 8 bytes,
modelling `u64::to_le_bytes`. -/
def le64 (n : Nat) : List Nat :=
  (List.range 8).map (fun i => n / 256 ^ i % 256)

/-- Little-endian decoding of a byte list, modelling `u64::from_le_bytes`. -/
def fromLE (bs : List Nat) : Nat :=
  bs.foldr (fun b acc => b + 256 * acc) 0

/-- The byte output of the packager (`run` in `capsules_compiler/src/main.rs`,
lines 92–99): runtime image, then payload, then the 8-byte little-endian
payload length, then the 8-byte magic. -/
def packaged (runtime payload magic : List Nat) : List Nat :=
  runtime ++ payload ++ le64 payload.length ++ magic

/-- `get_data` from `capsules_runtime/src/main.rs` (lines 21–55), modelled over
the bytes of the current executable (`none` models an `open`/`current_exe`
failure), the optional `__SUPERVISOR_PASSWORD__` environment variable, and the
`decrypt` function passed as an explicit parameter `dec` (password, salt,
nonce, ciphertext).  Seek failures are failures of `SeekFrom::End` offsets
that would land before the start of the file. -/
def get_data (file : Option (List Nat)) (password : Option String)
    (dec : String → List Nat → List Nat → List Nat → Except ErrorM (List Nat)) :
    Except ErrorM (List Nat) :=
  match file with
  | none => .error .NoData
  | some bytes =>
    if bytes.length < FOOTER_SIZE then .error .NoData
    else
      let footer := bytes.drop (bytes.length - FOOTER_SIZE)
      let magic := footer.drop 8
      if magic ≠ MAGIC_NUMBER_PLAIN ∧ magic ≠ MAGIC_NUMBER_ENCRIPTED then .error .NoData
      else
        let dataLen := fromLE (footer.take 8)
        if bytes.length < FOOTER_SIZE + dataLen then .error .NoData
        else
          let data := (bytes.drop (bytes.length - FOOTER_SIZE - dataLen)).take dataLen
          if magic = MAGIC_NUMBER_PLAIN then .ok data
          else if data.length < 28 then .error .InvalidDataFormat
          else
            match password with
            | none => .error .InvalidPassword
            | some pw => dec pw (data.take 16) ((data.drop 16).take 12) (data.drop 28)

/-- Idealized model of the key produced by PBKDF2-HMAC-SHA256 (`derive_key` in
`capsules_lib/src/lib.rs`, lines 37–41): the derived key is determined by, and
determines, the password and the salt — a collision-free idealization of the
external KDF primitive. -/
structure KeyM where
  password : String
  salt : List Nat
  deriving DecidableEq, Repr

/-- `derive_key` from `capsules_lib/src/lib.rs` over the idealized KDF. -/
def derive_key (password : String) (salt : List Nat) : KeyM :=
  ⟨password, salt⟩

/-- Idealized AES-256-GCM ciphertext (the AEAD primitive is an external
crate): a ciphertext determines the key, the nonce, and the plaintext. -/
structure CipherText where
  key : KeyM
  nonce : List Nat
  plaintext : List Nat
  deriving DecidableEq, Repr

/-- Idealized AEAD encryption. -/
def aeadEncrypt (k : KeyM) (nonce : List Nat) (pt : List Nat) : CipherText :=
  ⟨k, nonce, pt⟩

/-- Idealized AEAD decryption: succeeds exactly under the matching key and
nonce (perfect authenticity). -/
def aeadDecrypt (k : KeyM) (nonce : List Nat) (c : CipherText) : Option (List Nat) :=
  if c.key = k ∧ c.nonce = nonce then some c.plaintext else none

/-- `encrypt` from `capsules_lib/src/lib.rs` (lines 43–60).  The randomly
generated salt and nonce are explicit inputs; the function returns the triple
`(salt, nonce, ciphertext)` exactly as the source does. -/
def encrypt (salt nonce : List Nat) (password : String) (plaintext : List Nat) :
    List Nat × List Nat × CipherText :=
  (salt, nonce, aeadEncrypt (derive_key password salt) nonce plaintext)

/-- `decrypt` from `capsules_lib/src/lib.rs` (lines 62–77): derive the key
from password and salt, run AEAD decryption, and map every failure to
`InvalidPassword`. -/
def decrypt (password : String) (salt nonce : List Nat) (c : CipherText) :
    Except ErrorM (List Nat) :=
  match aeadDecrypt (derive_key password salt) nonce c with
  | some pt => .ok pt
  | none => .error .InvalidPassword

/-- `RestartPolicy` from `capsules_lib/src/lib.rs`. -/
inductive RestartPolicy where
  | Never
  | Always
  | OnFailure
  deriving DecidableEq, Repr

/-- `Status` from `capsules_lib/src/lib.rs`. -/
inductive Status where
  | Starting
  | Running (pid : Nat)
  | Exited (code : Int)
  | Killed
  deriving DecidableEq, Repr

/-- `Process` from `capsules_lib/src/lib.rs`; `HashMap`s are modelled as
association lists. -/
structure ProcessM where
  cmd : String
  args : Option (List String) := none
  cwd : Option String := none
  env : Option (List (String × String)) := none
  restart_policy : Option RestartPolicy := none
  restart_delay : Option Nat := none
  files : Option (List (String × String)) := none
  deriving DecidableEq, Repr

/-- `Capsule` from `capsules_lib/src/lib.rs`.  The `fs` blob is modelled at
the level of the parsed zip archive: a list of (entry name, entry bytes); its
byte serialization is `zipSerialize` below. -/
structure CapsuleM where
  version : String
  env : Option (List (String × String)) := none
  fs : Option (List (String × List Nat)) := none
  files : Option (List (String × String)) := none
  processes : Option (List (String × ProcessM)) := none
  deriving DecidableEq, Repr

/-- Model of an OS child handle (`std::process::Child`): the pid plus the
outcomes the supervisor can observe on it in the current loop iteration —
`tryWait` is the result of `try_wait()` (`none` = still running or wait
error, `some code` = exited, where `code = none` models a signal-terminated
child without an exit code), `killOk` the result of `kill()`. -/
structure ChildM where
  pid : Nat
  tryWait : Option (Option Int) := none
  killOk : Bool := true
  deriving DecidableEq, Repr

/-- `RunningProcess` from `capsules_lib/src/lib.rs`; the `Instant` is a
millisecond tick count. -/
structure RunningProcessM where
  name : String
  status : Status
  config : ProcessM
  child : ChildM
  started : Nat
  force_restart : Bool
  restarts : Nat
  deriving DecidableEq, Repr

/-- The respawn action of the reap loop (`deamon_run`, lines 375–383): on a
successful spawn, replace the child handle, set status to `Running(pid)`, add
`inc` to the restart counter and reset `started`; a failed spawn leaves the
entry as it is. -/
def respawn (now : Nat) (inc : Nat) (spawn : Option ChildM) (p : RunningProcessM) :
    RunningProcessM :=
  match spawn with
  | some child =>
    { p with status := Status.Running child.pid, child := child,
             restarts := p.restarts + inc, started := now }
  | none => p

/-- One pass of the reap-and-restart loop body for a single table entry
(`deamon_run` in `capsules_runtime/src/main.rs`, lines 350–390).  `now` is
the current instant and `spawn` the outcome of `start_child` should it be
called. -/
def reapOne (now : Nat) (spawn : Option ChildM) (p : RunningProcessM) : RunningProcessM :=
  if p.status = Status.Killed then p
  else if now - p.started < p.config.restart_delay.getD 10 then p
  else
    match p.child.tryWait with
    | none => p
    | some exitCode =>
      if p.force_restart then
        respawn now 0 spawn { p with force_restart := false }
      else
        let pol := p.config.restart_policy.getD RestartPolicy.Never
        if (exitCode ≠ some 0 ∧ pol = RestartPolicy.OnFailure) ∨ pol = RestartPolicy.Always then
          respawn now 1 spawn p
        else
          { p with status := Status.Exited (exitCode.getD (-9999)) }

/-- The control-message variants exactly as consumed by the supervisor loop in
`capsules_runtime/src/main.rs` (lines 234–346). -/
inductive CliMessage where
  | Kill (name : String)
  | Restart (name : String)
  | List
  | KillAll
  | TareDown
  | Status
  | KillDeamon
  deriving DecidableEq, Repr

/-- Per-child metrics as sampled from `sysinfo` (`deamon_run`, lines 274–285).
The `f32` CPU figure is modelled as an abstract `Nat` sample; none of the
verified claims depend on float semantics. -/
structure MetricsM where
  cpu_usage : Nat := 0
  memory_usage : Nat := 0
  run_time : Nat := 0
  disk_read : Nat := 0
  disk_written : Nat := 0
  deriving DecidableEq, Repr

/-- `ListResp` from `capsules_lib/src/lib.rs`. -/
structure ListRespM where
  status : Status
  name : String
  cpu_usage : Nat
  memory_usage : Nat
  disk_usage : Nat × Nat
  restarts : Nat
  run_time : Nat
  deriving DecidableEq, Repr

/-- `SupervisorResp` from `capsules_lib/src/lib.rs`. -/
inductive SupervisorResp where
  | Ok
  | Error (e : ErrorM)
  | List (l : List ListRespM)
  | Version (v : String)
  deriving DecidableEq, Repr

/-- A path string is absolute when its first character is `/`. -/
def isAbsolute (s : String) : Bool :=
  s.data.take 1 == ['/']

/-- Paths are modelled as component lists; `pjoin` models `Path::join` at the
granularity of one component per joined string (an absolute argument, marked
by a leading `/`, replaces the base, as `Path::join` does). -/
def pjoin (root : List String) (s : String) : List String :=
  if isAbsolute s then [s] else root ++ [s]

/-- `q` lies in the directory subtree rooted at `p` (including `p` itself). -/
def subtree (p q : List String) : Bool :=
  q.take p.length == p

/-- `fs::remove_dir_all`: fails (returns `none`) when the path does not
exist; otherwise removes the whole subtree from the store of existing
paths. -/
def remove_dir_all (p : List String) (store : List (List String)) :
    Option (List (List String)) :=
  if store.any (fun q => subtree p q) then
    some (store.filter (fun q => !subtree p q))
  else none

/-- The per-process loop of `clear_files` (`capsules_runtime/src/main.rs`,
lines 98–104): remove `root/(cwd or name)` for each declared process, failing
on the first path that no longer exists.  Returns success flag and the store
as mutated so far. -/
def clearProcDirs (root : List String) :
    List (String × ProcessM) → List (List String) → Bool × List (List String)
  | [], st => (true, st)
  | (name, proc) :: rest, st =>
    match remove_dir_all (pjoin root (proc.cwd.getD name)) st with
    | none => (false, st)
    | some st => clearProcDirs root rest st

/-- `clear_files` from `capsules_runtime/src/main.rs` (lines 95–106): remove
the extraction root recursively, then remove `root/(cwd or name)` for every
declared process. -/
def clear_files (root : List String) (c : CapsuleM) (st : List (List String)) :
    Bool × List (List String) :=
  match remove_dir_all root st with
  | none => (false, st)
  | some st => clearProcDirs root (c.processes.getD []) st

/-- The supervisor's in-memory state relevant to the control loop: the process
table (`HashMap<String, RunningProcess>` as an association list) and the set
of existing directories/files on disk. -/
structure LoopState where
  table : List (String × RunningProcessM)
  dirs : List (List String)
  deriving DecidableEq, Repr

/-- Result of servicing one datagram / one loop iteration: new state, the
response datagrams sent, and whether the loop keeps running. -/
structure StepOut where
  state : LoopState
  sent : List SupervisorResp
  keepRunning : Bool
  deriving DecidableEq, Repr

/-- The `Kill{name}` handler (`deamon_run`, lines 235–251). -/
def killByName (t : List (String × RunningProcessM)) (name : String) :
    List (String × RunningProcessM) × SupervisorResp :=
  match t.find? (fun kv => kv.1 == name) with
  | none => (t, .Error (.ProcessNotFound name))
  | some kv =>
    if kv.2.child.killOk then
      (t.map (fun e => if e.1 = name then (e.1, { e.2 with status := Status.Killed }) else e),
        .Ok)
    else (t, .Error .InternalError)

/-- The `Restart{name}` handler (`deamon_run`, lines 252–269). -/
def restartByName (t : List (String × RunningProcessM)) (name : String) :
    List (String × RunningProcessM) × SupervisorResp :=
  match t.find? (fun kv => kv.1 == name) with
  | none => (t, .Error (.ProcessNotFound name))
  | some kv =>
    if kv.2.child.killOk then
      (t.map (fun e => if e.1 = name then
          (e.1, { e.2 with status := Status.Starting, force_restart := true }) else e),
        .Ok)
    else (t, .Error .InternalError)

/-- One `ListResp` entry (`deamon_run`, lines 273–295): metrics come from the
`sysinfo` snapshot (`sys`), defaulting to zero when the pid is unknown. -/
def mkListResp (sys : Nat → Option MetricsM) (p : RunningProcessM) : ListRespM :=
  let m := (sys p.child.pid).getD {}
  { status := p.status, name := p.name, cpu_usage := m.cpu_usage,
    memory_usage := m.memory_usage, disk_usage := (m.disk_read, m.disk_written),
    restarts := p.restarts, run_time := m.run_time }

/-- Dispatch of one decoded control message (`deamon_run`, lines 234–346). -/
def handleMsg (root : List String) (c : CapsuleM) (sys : Nat → Option MetricsM)
    (st : LoopState) : CliMessage → StepOut
  | .Kill name =>
    ⟨⟨(killByName st.table name).1, st.dirs⟩, [(killByName st.table name).2], true⟩
  | .Restart name =>
    ⟨⟨(restartByName st.table name).1, st.dirs⟩, [(restartByName st.table name).2], true⟩
  | .List =>
    ⟨st, [.List (st.table.map (fun kv => mkListResp sys kv.2))], true⟩
  | .KillAll =>
    ⟨⟨st.table.map (fun kv =>
        if kv.2.child.killOk then (kv.1, { kv.2 with status := Status.Killed }) else kv),
      st.dirs⟩, [.Ok], true⟩
  | .TareDown =>
    ⟨⟨st.table, (clear_files root c st.dirs).2⟩,
      [if (clear_files root c st.dirs).1 then .Ok else .Error .InternalError], false⟩
  | .Status =>
    ⟨st, [.Version c.version], true⟩
  | .KillDeamon =>
    ⟨st, [.Ok], false⟩

/-- Servicing one received datagram (`deamon_run`, lines 232–348): the bytes
are decoded by `dec` (modelling `postcard::from_bytes::<CliMessage>`); bytes
that do not decode are silently dropped. -/
def handleDatagram (dec : List Nat → Option CliMessage) (root : List String)
    (c : CapsuleM) (sys : Nat → Option MetricsM) (st : LoopState)
    (buf : List Nat) : StepOut :=
  match dec buf with
  | none => ⟨st, [], true⟩
  | some msg => handleMsg root c sys st msg

/-- The reap-and-restart pass over the whole table (`deamon_run`, lines
350–390); `spawn` gives the outcome of `start_child` per process name. -/
def reapAll (now : Nat) (spawn : String → Option ChildM)
    (t : List (String × RunningProcessM)) : List (String × RunningProcessM) :=
  t.map (fun kv => (kv.1, reapOne now (spawn kv.1) kv.2))

/-- One full iteration of the supervisor loop: service at most one datagram,
then (unless the loop is exiting) reap and restart exited children. -/
def loopStep (dec : List Nat → Option CliMessage) (root : List String)
    (c : CapsuleM) (sys : Nat → Option MetricsM) (now : Nat)
    (spawn : String → Option ChildM) (st : LoopState)
    (dgram : Option (List Nat)) : StepOut :=
  let out : StepOut := match dgram with
    | none => ⟨st, [], true⟩
    | some buf => handleDatagram dec root c sys st buf
  if out.keepRunning then
    ⟨⟨reapAll now spawn out.state.table, out.state.dirs⟩, out.sent, true⟩
  else out

/-- The supervisor loop run over a finite schedule of iterations, each with
its instant, spawn outcomes, and optional incoming datagram. -/
def runLoop (dec : List Nat → Option CliMessage) (root : List String)
    (c : CapsuleM) (sys : Nat → Option MetricsM) :
    List (Nat × (String → Option ChildM) × Option (List Nat)) → LoopState → LoopState
  | [], st => st
  | (now, spawn, dgram) :: rest, st =>
    let out := loopStep dec root c sys now spawn st dgram
    if out.keepRunning then runLoop dec root c sys rest out.state else out.state

/-- Resolution of a capsule-relative source path (`write_files` in
`capsules_compiler/src/main.rs`, lines 194–199): an absolute path is used as
is, a relative one is joined to the capsule file's parent directory. -/
def resolve (base : String) (s : String) : String :=
  if isAbsolute s then s else base ++ "/" ++ s

/-- `write_files` from `capsules_compiler/src/main.rs` (lines 187–208): for
each `source → target` entry read the source bytes from the local file system
`lfs`, store them in the zip under a fresh random identifier, and record
`identifier → target` in the new mapping.  The stream of fresh Uuid v4
identifiers is modelled by `ns` applied to successive indices starting at
`i`; the result carries the zip entries added, the rewritten mapping, and the
next unused index. -/
def write_files (lfs : String → Option (List Nat)) (base : String) (ns : Nat → String) :
    List (String × String) → Nat →
    Option (List (String × List Nat) × List (String × String) × Nat)
  | [], i => some ([], [], i)
  | (src, tgt) :: rest, i =>
    match lfs (resolve base src) with
    | none => none
    | some bytes =>
      match write_files lfs base ns rest (i + 1) with
      | none => none
      | some (entries, mapping, j) =>
        some ((ns i, bytes) :: entries, (ns i, tgt) :: mapping, j)

/-- The per-process half of `to_binary` (`capsules_compiler/src/main.rs`,
lines 172–179): rewrite each process's file mapping, appending its entries to
the same zip archive. -/
def processFiles (lfs : String → Option (List Nat)) (base : String) (ns : Nat → String) :
    List (String × ProcessM) → Nat →
    Option (List (String × List Nat) × List (String × ProcessM) × Nat)
  | [], i => some ([], [], i)
  | (name, pr) :: rest, i =>
    match pr.files with
    | none =>
      match processFiles lfs base ns rest i with
      | none => none
      | some (es, ps, j) => some (es, (name, pr) :: ps, j)
    | some files =>
      match write_files lfs base ns files i with
      | none => none
      | some (es1, m1, j) =>
        match processFiles lfs base ns rest j with
        | none => none
        | some (es2, ps, k) =>
          some (es1 ++ es2, (name, { pr with files := some m1 }) :: ps, k)

/-- `to_binary` from `capsules_compiler/src/main.rs` (lines 164–185): rewrite
the global and per-process file mappings, collect all zip entries, and set the
capsule's `fs` field to the finished archive.  (The final `postcard`
serialization round-trips and is elided.) -/
def to_binary (lfs : String → Option (List Nat)) (base : String) (ns : Nat → String)
    (c : CapsuleM) : Option CapsuleM :=
  let gl : Option (List (String × List Nat) × Option (List (String × String)) × Nat) :=
    match c.files with
    | none => some ([], none, 0)
    | some files =>
      match write_files lfs base ns files 0 with
      | none => none
      | some (es, m, i) => some (es, some m, i)
  match gl with
  | none => none
  | some (es1, newFiles, i) =>
    match c.processes with
    | none => some { c with files := newFiles, fs := some es1 }
    | some procs =>
      match processFiles lfs base ns procs i with
      | none => none
      | some (es2, procs2, _) =>
        some { c with files := newFiles, processes := some procs2,
                      fs := some (es1 ++ es2) }

/-- One zip local-entry record of the serialized archive (coarse model of the
zip format: signature, length and name identify the entry). -/
def zipEntryBytes (e : String × List Nat) : List Nat :=
  [80, 75, 3, 4] ++ le64 e.2.length ++ e.1.data.map Char.toNat ++ e.2

/-- The end-of-central-directory record that terminates every finished zip
archive, present even when the archive holds zero entries. -/
def eocd : List Nat :=
  [80, 75, 5, 6] ++ List.replicate 18 0

/-- Byte serialization of the in-memory archive (`ZipWriter::finish`): the
entry records followed by the end-of-central-directory record. -/
def zipSerialize (entries : List (String × List Nat)) : List Nat :=
  entries.foldr (fun e acc => zipEntryBytes e ++ acc) eocd

/-- `by_name` lookup in the archive (`ZipArchive::by_name`). -/
def zipFind (zip : List (String × List Nat)) (nm : String) : Option (List Nat) :=
  (zip.find? (fun e => e.1 == nm)).map (fun e => e.2)

/-- The file-system state produced by extraction: files written (later writes
are consed on the front, so the first match is the current content) and
directories created. -/
structure ExtractState where
  files : List (List String × List Nat)
  dirs : List (List String)
  deriving DecidableEq, Repr

/-- Current content of a path in the extraction state. -/
def lookupPath (st : ExtractState) (p : List String) : Option (List Nat) :=
  (st.files.find? (fun kv => kv.1 == p)).map (fun kv => kv.2)

/-- `extract_file_map` from `capsules_runtime/src/main.rs` (lines 108–131):
for each `identifier → target` entry, find the archive entry, create the
target's parent directory, and write the bytes to `root.join(target)`. -/
def extract_file_map (zip : List (String × List Nat)) (root : List String) :
    List (String × String) → ExtractState → Option ExtractState
  | [], st => some st
  | (zipName, target) :: rest, st =>
    match zipFind zip zipName with
    | none => none
    | some bytes =>
      extract_file_map zip root rest
        { files := (pjoin root target, bytes) :: st.files,
          dirs := (pjoin root target).dropLast :: st.dirs }

/-- The per-process half of `extract_files` (`capsules_runtime/src/main.rs`,
lines 80–90): create `root/(cwd or name)` recursively, then extract the
process's file map — with `Path::new(cwd)` as the base, not
`root.join(cwd)`, exactly as the source does. -/
def extractProcs (zip : List (String × List Nat)) (root : List String) :
    List (String × ProcessM) → ExtractState → Option ExtractState
  | [], st => some st
  | (name, pr) :: rest, st =>
    let cwd := pr.cwd.getD name
    let st1 : ExtractState := { st with dirs := pjoin root cwd :: st.dirs }
    match pr.files with
    | none => extractProcs zip root rest st1
    | some files =>
      match extract_file_map zip [cwd] files st1 with
      | none => none
      | some st2 => extractProcs zip root rest st2

/-- `extract_files` from `capsules_runtime/src/main.rs` (lines 67–93): if the
capsule carries an archive, extract the global file map to the extraction
root, then every process's file map, and drop the `fs` field. -/
def extract_files (root : List String) (c : CapsuleM) (st : ExtractState) :
    Option (CapsuleM × ExtractState) :=
  match c.fs with
  | none => some (c, st)
  | some zip =>
    let st1 : Option ExtractState :=
      match c.files with
      | none => some st
      | some files => extract_file_map zip root files st
    match st1 with
    | none => none
    | some st =>
      match extractProcs zip root (c.processes.getD []) st with
      | none => none
      | some st => some ({ c with fs := none }, st)

/-- Correspondence between one declared `source → target` pair and its
rewritten `identifier → target` pair: same target, and the zip holds the
source's bytes under the identifier. -/
def pairRel (lfs : String → Option (List Nat)) (base : String)
    (zip : List (String × List Nat)) (ft nm : String × String) : Prop :=
  nm.2 = ft.2 ∧ ∃ b, lfs (resolve base ft.1) = some b ∧ (nm.1, b) ∈ zip

/-- Correspondence between one declared process and its rewritten form. -/
def procRel (lfs : String → Option (List Nat)) (base : String)
    (zip : List (String × List Nat)) (np np2 : String × ProcessM) : Prop :=
  np2.1 = np.1 ∧
  ((np.2.files = none ∧ np2.2 = np.2) ∨
    (∃ files m, np.2.files = some files ∧ np2.2 = { np.2 with files := some m } ∧
      List.Forall₂ (pairRel lfs base zip) files m))

/-- The packed form of the one-file capsule used as a C6 witness. -/
def c6packed : CapsuleM :=
  { version := "1.0.0", fs := some [("u", [9])], files := some [("u", "t")] }

/-- The declared one-file capsule used as a C6 witness. -/
def c6decl : CapsuleM :=
  { version := "1.0.0", files := some [("a.txt", "t")] }

/-- A one-process capsule (process `p`, cwd `w`, one file `u → t`) used to
exhibit where per-process extraction writes. -/
def c7caps : CapsuleM :=
  { version := "1.0.0", fs := some [("u", [1, 2, 3])],
    processes := some [("p", { cmd := "x", cwd := some "w", files := some [("u", "t")] })] }

/-- The local file system used in the C2 concrete runs: one file
`/c/a.txt` holding the byte `9`. -/
def c2lfs : String → Option (List Nat) :=
  fun p => if p = "/c/a.txt" then some [9] else none

/-- Declared capsule for the C2 concrete runs: one process `p` with cwd `w`
and one file `a.txt → t`. -/
def c2decl : CapsuleM :=
  { version := "1.0.0",
    processes := some [("p", { cmd := "x", cwd := some "w", files := some [("a.txt", "t")] })] }

/-- The packed form of `c2decl` under the identifier stream `fun _ => "u"`. -/
def c2packed : CapsuleM :=
  { version := "1.0.0", fs := some [("u", [9])],
    processes := some [("p", { cmd := "x", cwd := some "w", files := some [("u", "t")] })] }

/-- A collision-free identifier stream for the C2 witness. -/
def uuidSeq (i : Nat) : String :=
  String.mk (List.replicate i 'a')

/-- The packed form of `c2decl` under the identifier stream `uuidSeq`. -/
def c2packedU : CapsuleM :=
  { version := "1.0.0", fs := some [(uuidSeq 0, [9])],
    processes := some [("p", { cmd := "x", cwd := some "w",
                               files := some [(uuidSeq 0, "t")] })] }

theorem le64_length (n : Nat) : (le64 n).length = 8 := by
  simp [le64]

theorem fromLE_le64 (n : Nat) (h : n < 2 ^ 64) : fromLE (le64 n) = n := by
  simp only [le64, List.range_succ, List.range_zero, List.map_append, List.map_cons,
    List.map_nil, List.nil_append, List.cons_append, fromLE, List.foldr_cons, List.foldr_nil]
  omega

theorem packaged_length (r p m : List Nat) :
    (packaged r p m).length = r.length + p.length + 8 + m.length := by
  simp [packaged, le64_length]
  omega

theorem packaged_footer (r p m : List Nat) (hm : m.length = 8) :
    (packaged r p m).drop ((packaged r p m).length - 16) = le64 p.length ++ m := by
  have h1 : packaged r p m = (r ++ p) ++ (le64 p.length ++ m) := by
    simp [packaged]
  have h2 : (packaged r p m).length - 16 = (r ++ p).length := by
    rw [packaged_length]
    simp [hm]
  rw [h2, h1, List.drop_left]

theorem packaged_data (r p m : List Nat) (hm : m.length = 8) :
    ((packaged r p m).drop ((packaged r p m).length - 16 - p.length)).take p.length = p := by
  have h1 : packaged r p m = r ++ (p ++ (le64 p.length ++ m)) := by
    simp [packaged]
  have h2 : (packaged r p m).length - 16 - p.length = r.length := by
    rw [packaged_length]
    simp [hm]
  rw [h2, h1, List.drop_left, List.take_left]

theorem get_data_packaged_plain (r p : List Nat) (pw : Option String)
    (dec : String → List Nat → List Nat → List Nat → Except ErrorM (List Nat))
    (h : p.length < 2 ^ 64) :
    get_data (some (packaged r p MAGIC_NUMBER_PLAIN)) pw dec = .ok p := by
  have hm : MAGIC_NUMBER_PLAIN.length = 8 := rfl
  have hfoot := packaged_footer r p MAGIC_NUMBER_PLAIN hm
  have hlen := packaged_length r p MAGIC_NUMBER_PLAIN
  have hdata := packaged_data r p MAGIC_NUMBER_PLAIN hm
  simp only [get_data, FOOTER_SIZE, hfoot]
  have htake : (le64 p.length ++ MAGIC_NUMBER_PLAIN).take 8 = le64 p.length :=
    List.take_left' (le64_length p.length)
  have hdrop : (le64 p.length ++ MAGIC_NUMBER_PLAIN).drop 8 = MAGIC_NUMBER_PLAIN :=
    List.drop_left' (le64_length p.length)
  rw [htake, hdrop, fromLE_le64 p.length h]
  rw [if_neg (by omega : ¬ (packaged r p MAGIC_NUMBER_PLAIN).length < 16)]
  rw [if_neg (by simp : ¬ (MAGIC_NUMBER_PLAIN ≠ MAGIC_NUMBER_PLAIN ∧
        MAGIC_NUMBER_PLAIN ≠ MAGIC_NUMBER_ENCRIPTED))]
  rw [if_neg (by rw [hm] at hlen; omega :
        ¬ (packaged r p MAGIC_NUMBER_PLAIN).length < 16 + p.length)]
  rw [if_pos rfl, hdata]

/-- C3: A packaged binary is exactly runtime ‖ payload ‖ le64(length) ‖ magic,
so the footer is the last 16 bytes: the last 16 bytes are le64(length) ‖ magic,
the `length` bytes immediately preceding the footer are exactly the payload,
and (for a plaintext payload) `get_data` recovers exactly the payload. -/
theorem C3_footer_locatability (r p m : List Nat)
    (hm : m = MAGIC_NUMBER_PLAIN ∨ m = MAGIC_NUMBER_ENCRIPTED)
    (hp : p.length < 2 ^ 64) :
    packaged r p m = r ++ p ++ le64 p.length ++ m ∧
    (packaged r p m).drop ((packaged r p m).length - 16) = le64 p.length ++ m ∧
    ((packaged r p m).drop ((packaged r p m).length - 16 - p.length)).take p.length = p ∧
    (m = MAGIC_NUMBER_PLAIN → ∀ pw dec, get_data (some (packaged r p m)) pw dec = .ok p) := by
  have hm8 : m.length = 8 := by
    rcases hm with h | h <;> subst h <;> rfl
  refine ⟨rfl, packaged_footer r p m hm8, packaged_data r p m hm8, ?_⟩
  intro hplain pw dec
  subst hplain
  exact get_data_packaged_plain r p pw dec hp

/-- Witness for C3 at a concrete packaged binary. -/
theorem C3_footer_locatability_witness :
    ((packaged [7] [1, 2, 3] MAGIC_NUMBER_PLAIN).drop
        ((packaged [7] [1, 2, 3] MAGIC_NUMBER_PLAIN).length - 16 - 3)).take 3 = [1, 2, 3] ∧
    get_data (some (packaged [7] [1, 2, 3] MAGIC_NUMBER_PLAIN)) none
        (fun _ _ _ _ => .error .NoData) = .ok [1, 2, 3] := by
  have h := C3_footer_locatability [7] [1, 2, 3] MAGIC_NUMBER_PLAIN (Or.inl rfl) (by decide)
  exact ⟨h.2.2.1, h.2.2.2 rfl none _⟩

/-- C5 counterexample: an encrypted-magic binary whose payload region is
shorter than 28 bytes yields `InvalidDataFormat`, not `InvalidPassword`, even
though `__SUPERVISOR_PASSWORD__` is unset — the short-data check precedes the
password check in `get_data`. -/
theorem C5_counterexample :
    get_data (some (packaged [] [] MAGIC_NUMBER_ENCRIPTED)) none
        (fun _ _ _ _ => .error .NoData) = .error .InvalidDataFormat ∧
    (Except.error ErrorM.InvalidDataFormat : Except ErrorM (List Nat)) ≠
      .error .InvalidPassword := by
  constructor
  · rfl
  · intro h
    simp at h

/-- C5 (amended): any I/O or seek failure and any unknown trailing magic yield
`NoData`; when the magic is `SETENV_E`, the password variable is unset, and the
recovered payload region is at least 28 bytes, the result is `InvalidPassword`
for every decryption function (so decryption is never attempted); a shorter
encrypted payload yields `InvalidDataFormat` instead. -/
theorem C5_load_errors :
    (∀ pw dec, get_data none pw dec = .error .NoData) ∧
    (∀ (bytes : List Nat) pw dec, bytes.length < 16 →
      get_data (some bytes) pw dec = .error .NoData) ∧
    (∀ (bytes : List Nat) pw dec, 16 ≤ bytes.length →
      (bytes.drop (bytes.length - 16)).drop 8 ≠ MAGIC_NUMBER_PLAIN →
      (bytes.drop (bytes.length - 16)).drop 8 ≠ MAGIC_NUMBER_ENCRIPTED →
      get_data (some bytes) pw dec = .error .NoData) ∧
    (∀ (bytes : List Nat) pw dec, 16 ≤ bytes.length →
      bytes.length < 16 + fromLE ((bytes.drop (bytes.length - 16)).take 8) →
      get_data (some bytes) pw dec = .error .NoData) ∧
    (∀ (r p : List Nat) dec, 28 ≤ p.length → p.length < 2 ^ 64 →
      get_data (some (packaged r p MAGIC_NUMBER_ENCRIPTED)) none dec =
        .error .InvalidPassword) := by
  refine ⟨fun pw dec => rfl, ?_, ?_, ?_, ?_⟩
  · intro bytes pw dec h
    simp only [get_data, FOOTER_SIZE]
    rw [if_pos h]
  · intro bytes pw dec h16 hP hE
    simp only [get_data, FOOTER_SIZE]
    rw [if_neg (not_lt.2 h16), if_pos ⟨hP, hE⟩]
  · intro bytes pw dec h16 hlen
    simp only [get_data, FOOTER_SIZE]
    rw [if_neg (not_lt.2 h16)]
    by_cases hmagic : (bytes.drop (bytes.length - 16)).drop 8 ≠ MAGIC_NUMBER_PLAIN ∧
        (bytes.drop (bytes.length - 16)).drop 8 ≠ MAGIC_NUMBER_ENCRIPTED
    · rw [if_pos hmagic]
    · rw [if_neg hmagic, if_pos hlen]
  · intro r p dec h28 h64
    have hm8 : MAGIC_NUMBER_ENCRIPTED.length = 8 := rfl
    have hfoot := packaged_footer r p MAGIC_NUMBER_ENCRIPTED hm8
    have hlen := packaged_length r p MAGIC_NUMBER_ENCRIPTED
    have hdata := packaged_data r p MAGIC_NUMBER_ENCRIPTED hm8
    simp only [get_data, FOOTER_SIZE, hfoot]
    have htake : (le64 p.length ++ MAGIC_NUMBER_ENCRIPTED).take 8 = le64 p.length :=
      List.take_left' (le64_length p.length)
    have hdrop : (le64 p.length ++ MAGIC_NUMBER_ENCRIPTED).drop 8 = MAGIC_NUMBER_ENCRIPTED :=
      List.drop_left' (le64_length p.length)
    rw [htake, hdrop, fromLE_le64 p.length h64]
    rw [if_neg (by omega : ¬ (packaged r p MAGIC_NUMBER_ENCRIPTED).length < 16)]
    rw [if_neg (by simp : ¬ (MAGIC_NUMBER_ENCRIPTED ≠ MAGIC_NUMBER_PLAIN ∧
          MAGIC_NUMBER_ENCRIPTED ≠ MAGIC_NUMBER_ENCRIPTED))]
    rw [if_neg (by rw [hm8] at hlen; omega :
          ¬ (packaged r p MAGIC_NUMBER_ENCRIPTED).length < 16 + p.length)]
    rw [if_neg (by decide : ¬ MAGIC_NUMBER_ENCRIPTED = MAGIC_NUMBER_PLAIN)]
    rw [hdata, if_neg (not_lt.2 h28)]

/-- Witness for C5 at concrete inputs. -/
theorem C5_load_errors_witness :
    get_data (some [1, 2, 3]) none (fun _ _ _ _ => .error .NoData) = .error .NoData ∧
    get_data (some (packaged [9] (List.replicate 28 0) MAGIC_NUMBER_ENCRIPTED)) none
        (fun _ _ _ _ => .error .NoData) = .error .InvalidPassword := by
  refine ⟨C5_load_errors.2.1 [1, 2, 3] none _ (by decide), ?_⟩
  exact C5_load_errors.2.2.2.2 [9] (List.replicate 28 0) _ (by simp) (by simp)

/-- C4: decrypting with the encrypting password recovers the plaintext;
decrypting with any other password yields `InvalidPassword`; and every
decryption outcome is either a successful plaintext or exactly
`InvalidPassword` (no other error ever surfaces).  Proved over the idealized
(collision-free, perfectly authenticated) KDF/AEAD model. -/
theorem C4_encrypt_decrypt (P Pbad : String) (salt nonce X : List Nat)
    (h : Pbad ≠ P) :
    decrypt P (encrypt salt nonce P X).1 (encrypt salt nonce P X).2.1
        (encrypt salt nonce P X).2.2 = .ok X ∧
    decrypt Pbad (encrypt salt nonce P X).1 (encrypt salt nonce P X).2.1
        (encrypt salt nonce P X).2.2 = .error .InvalidPassword ∧
    (∀ pw s n c, decrypt pw s n c = .ok c.plaintext ∨
      decrypt pw s n c = .error .InvalidPassword) := by
  refine ⟨?_, ?_, ?_⟩
  · simp [decrypt, encrypt, aeadDecrypt, aeadEncrypt]
  · simp only [decrypt, encrypt, aeadDecrypt, aeadEncrypt]
    rw [if_neg]
    intro hc
    exact h (congrArg KeyM.password (congrArg CipherText.key
      (congrArg (fun k => aeadEncrypt k nonce X) (hc.1.symm.trans rfl)))) |>.elim
  · intro pw s n c
    unfold decrypt aeadDecrypt
    by_cases hc : c.key = derive_key pw s ∧ c.nonce = n
    · rw [if_pos hc]
      exact Or.inl rfl
    · rw [if_neg hc]
      exact Or.inr rfl

/-- Witness for C4 at concrete passwords and bytes. -/
theorem C4_encrypt_decrypt_witness :
    decrypt "s3cret" (encrypt [0] [1] "s3cret" [5, 6]).1
        (encrypt [0] [1] "s3cret" [5, 6]).2.1
        (encrypt [0] [1] "s3cret" [5, 6]).2.2 = .ok [5, 6] ∧
    decrypt "wrong" (encrypt [0] [1] "s3cret" [5, 6]).1
        (encrypt [0] [1] "s3cret" [5, 6]).2.1
        (encrypt [0] [1] "s3cret" [5, 6]).2.2 = .error .InvalidPassword :=
  ⟨(C4_encrypt_decrypt "s3cret" "wrong" [0] [1] [5, 6] (by decide)).1,
   (C4_encrypt_decrypt "s3cret" "wrong" [0] [1] [5, 6] (by decide)).2.1⟩

/-- C1: for a child reaped after at least `restart_delay` has elapsed, with a
successful respawn available: a set `force_restart` flag causes an
unconditional respawn that clears the flag and leaves the counter unchanged;
otherwise the process respawns exactly under policy `always`, or `on_failure`
with an unsuccessful exit status, incrementing the counter by one; if not
respawned the status becomes `Exited(code)` with a missing code reported as
`-9999`; and an absent policy defaults to `never`. -/
theorem C1_restart_policy (p : RunningProcessM) (c : ChildM) (code : Option Int) (now : Nat)
    (hk : p.status ≠ Status.Killed)
    (hd : p.config.restart_delay.getD 10 ≤ now - p.started)
    (hw : p.child.tryWait = some code) :
    (p.force_restart = true →
      reapOne now (some c) p =
        { p with status := Status.Running c.pid, child := c, force_restart := false,
                 restarts := p.restarts, started := now }) ∧
    (p.force_restart = false →
      ((p.config.restart_policy.getD RestartPolicy.Never = RestartPolicy.Always ∨
          (p.config.restart_policy.getD RestartPolicy.Never = RestartPolicy.OnFailure ∧
            code ≠ some 0)) →
        reapOne now (some c) p =
          { p with status := Status.Running c.pid, child := c,
                   restarts := p.restarts + 1, started := now }) ∧
      (¬ (p.config.restart_policy.getD RestartPolicy.Never = RestartPolicy.Always ∨
          (p.config.restart_policy.getD RestartPolicy.Never = RestartPolicy.OnFailure ∧
            code ≠ some 0)) →
        reapOne now (some c) p =
          { p with status := Status.Exited (code.getD (-9999)) })) ∧
    (p.config.restart_policy = none →
      p.config.restart_policy.getD RestartPolicy.Never = RestartPolicy.Never) := by
  have hred : reapOne now (some c) p =
      (if p.force_restart then
        respawn now 0 (some c) { p with force_restart := false }
      else
        let pol := p.config.restart_policy.getD RestartPolicy.Never
        if (code ≠ some 0 ∧ pol = RestartPolicy.OnFailure) ∨ pol = RestartPolicy.Always then
          respawn now 1 (some c) p
        else
          { p with status := Status.Exited (code.getD (-9999)) }) := by
    rw [reapOne, if_neg hk, if_neg (by omega), hw]
  refine ⟨?_, ?_, ?_⟩
  · intro hf
    rw [hred, if_pos hf]
    rfl
  · intro hf
    rw [hred, if_neg (by rw [hf]; exact Bool.false_ne_true)]
    constructor
    · intro hpol
      rw [if_pos (by tauto), respawn]
    · intro hpol
      rw [if_neg (by tauto)]
  · intro hnone
    rw [hnone]
    rfl

/-- Witness for C1 at a concrete table entry (policy `on_failure`, exit 1). -/
theorem C1_restart_policy_witness :
    reapOne 10 (some { pid := 7, tryWait := none, killOk := true })
        { name := "a", status := Status.Running 5,
          config := { cmd := "/bin/false", restart_policy := some RestartPolicy.OnFailure },
          child := { pid := 5, tryWait := some (some 1), killOk := true },
          started := 0, force_restart := false, restarts := 0 } =
      { name := "a", status := Status.Running 7,
        config := { cmd := "/bin/false", restart_policy := some RestartPolicy.OnFailure },
        child := { pid := 7, tryWait := none, killOk := true },
        started := 10, force_restart := false, restarts := 1 } :=
  ((C1_restart_policy _ { pid := 7, tryWait := none, killOk := true } (some 1) 10
      (by decide) (by decide) rfl).2.1 rfl).1
    (Or.inr ⟨rfl, by decide⟩)

theorem killByName_keys (t : List (String × RunningProcessM)) (name : String) :
    ((killByName t name).1).map Prod.fst = t.map Prod.fst := by
  unfold killByName
  cases h : t.find? (fun kv => kv.1 == name) with
  | none => rfl
  | some kv =>
    by_cases hk : kv.2.child.killOk
    · simp only [h, hk, if_true, List.map_map]
      apply List.map_congr_left
      intro e _
      by_cases he : e.1 = name <;> simp [he]
    · simp [h, hk]

theorem restartByName_keys (t : List (String × RunningProcessM)) (name : String) :
    ((restartByName t name).1).map Prod.fst = t.map Prod.fst := by
  unfold restartByName
  cases h : t.find? (fun kv => kv.1 == name) with
  | none => rfl
  | some kv =>
    by_cases hk : kv.2.child.killOk
    · simp only [h, hk, if_true, List.map_map]
      apply List.map_congr_left
      intro e _
      by_cases he : e.1 = name <;> simp [he]
    · simp [h, hk]

theorem reapAll_keys (now : Nat) (spawn : String → Option ChildM)
    (t : List (String × RunningProcessM)) :
    (reapAll now spawn t).map Prod.fst = t.map Prod.fst := by
  simp [reapAll, List.map_map, Function.comp]

theorem handleMsg_keys (root : List String) (c : CapsuleM) (sys : Nat → Option MetricsM)
    (st : LoopState) (msg : CliMessage) :
    ((handleMsg root c sys st msg).state.table).map Prod.fst = st.table.map Prod.fst := by
  cases msg with
  | Kill name => exact killByName_keys st.table name
  | Restart name => exact restartByName_keys st.table name
  | List => rfl
  | KillAll =>
    simp only [handleMsg, List.map_map]
    apply List.map_congr_left
    intro e _
    by_cases he : e.2.child.killOk <;> simp [he]
  | TareDown => rfl
  | Status => rfl
  | KillDeamon => rfl

theorem handleDatagram_keys (dec : List Nat → Option CliMessage) (root : List String)
    (c : CapsuleM) (sys : Nat → Option MetricsM) (st : LoopState) (buf : List Nat) :
    ((handleDatagram dec root c sys st buf).state.table).map Prod.fst =
      st.table.map Prod.fst := by
  unfold handleDatagram
  cases dec buf with
  | none => rfl
  | some msg => exact handleMsg_keys root c sys st msg

theorem loopStep_keys (dec : List Nat → Option CliMessage) (root : List String)
    (c : CapsuleM) (sys : Nat → Option MetricsM) (now : Nat)
    (spawn : String → Option ChildM) (st : LoopState) (dgram : Option (List Nat)) :
    ((loopStep dec root c sys now spawn st dgram).state.table).map Prod.fst =
      st.table.map Prod.fst := by
  cases dgram with
  | none =>
    simp [loopStep, reapAll_keys]
  | some buf =>
    simp only [loopStep]
    by_cases hk : (handleDatagram dec root c sys st buf).keepRunning
    · simp [hk, reapAll_keys, handleDatagram_keys]
    · simp [hk, handleDatagram_keys]

theorem runLoop_keys (dec : List Nat → Option CliMessage) (root : List String)
    (c : CapsuleM) (sys : Nat → Option MetricsM)
    (steps : List (Nat × (String → Option ChildM) × Option (List Nat)))
    (st : LoopState) :
    ((runLoop dec root c sys steps st).table).map Prod.fst = st.table.map Prod.fst := by
  induction steps generalizing st with
  | nil => rfl
  | cons hd rest ih =>
    obtain ⟨now, spawn, dgram⟩ := hd
    unfold runLoop
    simp only
    by_cases hk : (loopStep dec root c sys now spawn st dgram).keepRunning
    · rw [if_pos hk, ih, loopStep_keys]
    · rw [if_neg hk, loopStep_keys]

/-- C9: a datagram whose bytes do not decode as a control message produces no
response, leaves the process table, every status, and the on-disk state
unchanged, and the loop continues. -/
theorem C9_undecodable_datagram (dec : List Nat → Option CliMessage)
    (root : List String) (c : CapsuleM) (sys : Nat → Option MetricsM)
    (st : LoopState) (buf : List Nat) (h : dec buf = none) :
    handleDatagram dec root c sys st buf = ⟨st, [], true⟩ := by
  unfold handleDatagram
  rw [h]

/-- Witness for C9 at a concrete state and datagram. -/
theorem C9_undecodable_datagram_witness :
    handleDatagram (fun _ => none) [".capsule"] { version := "1.0.0" } (fun _ => none)
        ⟨[("a", { name := "a", status := Status.Starting, config := { cmd := "x" },
                  child := { pid := 3 }, started := 0, force_restart := false,
                  restarts := 0 })], []⟩ [7, 7, 7] =
      ⟨⟨[("a", { name := "a", status := Status.Starting, config := { cmd := "x" },
                 child := { pid := 3 }, started := 0, force_restart := false,
                 restarts := 0 })], []⟩, [], true⟩ :=
  C9_undecodable_datagram (fun _ => none) [".capsule"] { version := "1.0.0" }
    (fun _ => none) _ [7, 7, 7] rfl

/-- C10: the process table's keys are invariant over any run of the
supervisor loop; a `List` request answers with exactly one entry per table
entry carrying that entry's name; and `Kill`/`Restart` for a name absent from
the table answer `Error(ProcessNotFound)` leaving the table unchanged. -/
theorem C10_table_never_shrinks (dec : List Nat → Option CliMessage)
    (root : List String) (c : CapsuleM) (sys : Nat → Option MetricsM)
    (steps : List (Nat × (String → Option ChildM) × Option (List Nat)))
    (st : LoopState) (name : String)
    (habsent : st.table.find? (fun kv => kv.1 == name) = none) :
    ((runLoop dec root c sys steps st).table).map Prod.fst = st.table.map Prod.fst ∧
    (handleMsg root c sys st .List =
      ⟨st, [.List (st.table.map (fun kv => mkListResp sys kv.2))], true⟩) ∧
    (st.table.map (fun kv => mkListResp sys kv.2)).length = st.table.length ∧
    (st.table.map (fun kv => mkListResp sys kv.2)).map ListRespM.name =
      st.table.map (fun kv => kv.2.name) ∧
    handleMsg root c sys st (.Kill name) =
      ⟨st, [.Error (.ProcessNotFound name)], true⟩ ∧
    handleMsg root c sys st (.Restart name) =
      ⟨st, [.Error (.ProcessNotFound name)], true⟩ := by
  refine ⟨runLoop_keys dec root c sys steps st, rfl, by simp, ?_, ?_, ?_⟩
  · simp [mkListResp]
  · simp [handleMsg, killByName, habsent]
  · simp [handleMsg, restartByName, habsent]

/-- Witness for C10 at a concrete state, schedule, and absent name. -/
theorem C10_table_never_shrinks_witness :
    ((runLoop (fun _ => some .KillAll) [".capsule"] { version := "1.0.0" } (fun _ => none)
        [(0, fun _ => none, some [1])]
        ⟨[("a", { name := "a", status := Status.Running 3, config := { cmd := "x" },
                  child := { pid := 3 }, started := 0, force_restart := false,
                  restarts := 0 })], []⟩).table).map Prod.fst = ["a"] ∧
    handleMsg [".capsule"] { version := "1.0.0" } (fun _ => none)
        ⟨[("a", { name := "a", status := Status.Running 3, config := { cmd := "x" },
                  child := { pid := 3 }, started := 0, force_restart := false,
                  restarts := 0 })], []⟩ (.Kill "b") =
      ⟨⟨[("a", { name := "a", status := Status.Running 3, config := { cmd := "x" },
                 child := { pid := 3 }, started := 0, force_restart := false,
                 restarts := 0 })], []⟩, [.Error (.ProcessNotFound "b")], true⟩ := by
  have h := C10_table_never_shrinks (fun _ => some .KillAll) [".capsule"]
    { version := "1.0.0" } (fun _ => none) [(0, fun _ => none, some [1])]
    ⟨[("a", { name := "a", status := Status.Running 3, config := { cmd := "x" },
              child := { pid := 3 }, started := 0, force_restart := false,
              restarts := 0 })], []⟩ "b" (by decide)
  exact ⟨h.1, h.2.2.2.2.1⟩

theorem subtree_append (p : List String) (x : String) (q : List String)
    (h : subtree (p ++ [x]) q = true) : subtree p q = true := by
  simp only [subtree, beq_iff_eq, List.length_append, List.length_singleton] at h ⊢
  have ht : q.take p.length = (q.take (p.length + 1)).take p.length := by
    rw [List.take_take]
    congr 1
    omega
  rw [ht, h, List.take_left]

/-- `clear_files` always fails for a capsule that declares a process with a
relative working directory, whenever the extraction root exists: the root is
removed recursively first, so the subsequent `remove_dir_all(root/cwd)` hits a
path that no longer exists.  Afterwards the root is indeed gone. -/
theorem clear_files_fails (root : List String) (c : CapsuleM) (n : String)
    (pr : ProcessM) (rest : List (String × ProcessM)) (st : List (List String))
    (hp : c.processes = some ((n, pr) :: rest))
    (hcwd : isAbsolute (pr.cwd.getD n) = false)
    (hroot : st.any (fun q => subtree root q) = true) :
    (clear_files root c st).1 = false ∧
    ((clear_files root c st).2.any (fun q => subtree root q)) = false := by
  have hfilter : ∀ q ∈ st.filter (fun q => !subtree root q), subtree root q = false := by
    intro q hq
    have := (List.mem_filter.1 hq).2
    simpa using this
  have hgone : (st.filter (fun q => !subtree root q)).any (fun q => subtree root q) = false := by
    rw [List.any_eq_false]
    intro q hq
    simp [hfilter q hq]
  have htarget : (st.filter (fun q => !subtree root q)).any
      (fun q => subtree (root ++ [pr.cwd.getD n]) q) = false := by
    rw [List.any_eq_false]
    intro q hq
    intro hsub
    have := subtree_append root (pr.cwd.getD n) q (by simpa using hsub)
    rw [hfilter q hq] at this
    exact Bool.false_ne_true this
  have hcf : clear_files root c st =
      (false, st.filter (fun q => !subtree root q)) := by
    unfold clear_files
    rw [remove_dir_all, if_pos hroot, hp]
    simp only [Option.getD]
    unfold clearProcDirs
    rw [pjoin, if_neg (by simp [hcwd]), remove_dir_all, if_neg (by simp [htarget])]
  rw [hcf]
  exact ⟨rfl, hgone⟩

/-- C8: evaluating the `TearDown` handler at a healthy supervisor for a
capsule with one declared process: every child is killed and the extraction
root is removed, but the response is `Error(InternalError)` rather than `Ok`,
because `clear_files` removes the root recursively and then fails on the
already-deleted per-process directory.  The supervisor still exits. -/
theorem C8_teardown_error :
    handleMsg [".capsule"]
        { version := "1.0.0",
          processes := some [("a", { cmd := "/bin/true" })] }
        (fun _ => none)
        ⟨[("a", { name := "a", status := Status.Running 3, config := { cmd := "/bin/true" },
                  child := { pid := 3 }, started := 0, force_restart := false,
                  restarts := 0 })],
         [[".capsule"], [".capsule", "a"]]⟩ .TareDown =
      ⟨⟨[("a", { name := "a", status := Status.Running 3, config := { cmd := "/bin/true" },
                 child := { pid := 3 }, started := 0, force_restart := false,
                 restarts := 0 })], []⟩,
        [.Error .InternalError], false⟩ := by
  have h := clear_files_fails [".capsule"]
    { version := "1.0.0", processes := some [("a", { cmd := "/bin/true" })] }
    "a" { cmd := "/bin/true" } [] [[".capsule"], [".capsule", "a"]]
    rfl (by decide) (by decide)
  show (⟨⟨_, (clear_files _ _ _).2⟩, [if (clear_files _ _ _).1 then .Ok
      else .Error .InternalError], false⟩ : StepOut) = _
  rw [h.1]
  have h2 : (clear_files [".capsule"]
      { version := "1.0.0", processes := some [("a", { cmd := "/bin/true" })] }
      [[".capsule"], [".capsule", "a"]]).2 = [] := by decide
  rw [h2]
  rfl

theorem pairRel_mono (lfs : String → Option (List Nat)) (base : String)
    (z1 z2 : List (String × List Nat)) (hsub : ∀ e ∈ z1, e ∈ z2)
    (ft nm : String × String) (h : pairRel lfs base z1 ft nm) :
    pairRel lfs base z2 ft nm := by
  obtain ⟨ht, b, hb, hmem⟩ := h
  exact ⟨ht, b, hb, hsub _ hmem⟩

theorem procRel_mono (lfs : String → Option (List Nat)) (base : String)
    (z1 z2 : List (String × List Nat)) (hsub : ∀ e ∈ z1, e ∈ z2)
    (np np2 : String × ProcessM) (h : procRel lfs base z1 np np2) :
    procRel lfs base z2 np np2 := by
  obtain ⟨hn, hrest⟩ := h
  refine ⟨hn, ?_⟩
  rcases hrest with h | ⟨files, m, hf, he, hall⟩
  · exact Or.inl h
  · exact Or.inr ⟨files, m, hf, he, hall.imp (pairRel_mono lfs base z1 z2 hsub)⟩

theorem write_files_spec (lfs : String → Option (List Nat)) (base : String)
    (ns : Nat → String) (files : List (String × String)) (i : Nat)
    (es : List (String × List Nat)) (m : List (String × String)) (j : Nat)
    (h : write_files lfs base ns files i = some (es, m, j)) :
    j = i + files.length ∧
    es.map Prod.fst = (List.range' i files.length).map ns ∧
    List.Forall₂ (pairRel lfs base es) files m := by
  induction files generalizing i es m j with
  | nil =>
    simp only [write_files, Option.some_inj, Prod.mk.injEq] at h
    obtain ⟨h1, h2, h3⟩ := h
    subst h1 h2 h3
    exact ⟨rfl, rfl, List.Forall₂.nil⟩
  | cons ft rest ih =>
    obtain ⟨src, tgt⟩ := ft
    simp only [write_files] at h
    cases hb : lfs (resolve base src) with
    | none => rw [hb] at h; exact absurd h (by simp)
    | some bytes =>
      rw [hb] at h
      cases hr : write_files lfs base ns rest (i + 1) with
      | none => rw [hr] at h; exact absurd h (by simp)
      | some out =>
        obtain ⟨entries, mapping, k⟩ := out
        rw [hr] at h
        simp only [Option.some_inj, Prod.mk.injEq] at h
        obtain ⟨he, hm, hj⟩ := h
        obtain ⟨hj', hnames, hall⟩ := ih (i + 1) entries mapping k hr
        subst he hm hj
        refine ⟨by simp; omega, ?_, ?_⟩
        · simp only [List.length_cons, List.range'_succ, List.map_cons, List.map_map]
          rw [hnames]
        · refine List.Forall₂.cons ⟨rfl, bytes, hb, List.mem_cons_self _ _⟩ ?_
          exact hall.imp (pairRel_mono lfs base entries _
            (fun e he => List.mem_cons_of_mem _ he))

theorem processFiles_spec (lfs : String → Option (List Nat)) (base : String)
    (ns : Nat → String) (procs : List (String × ProcessM)) (i : Nat)
    (es : List (String × List Nat)) (ps : List (String × ProcessM)) (j : Nat)
    (h : processFiles lfs base ns procs i = some (es, ps, j)) :
    i ≤ j ∧
    es.map Prod.fst = (List.range' i (j - i)).map ns ∧
    List.Forall₂ (procRel lfs base es) procs ps := by
  induction procs generalizing i es ps j with
  | nil =>
    simp only [processFiles, Option.some_inj, Prod.mk.injEq] at h
    obtain ⟨h1, h2, h3⟩ := h
    subst h1 h2 h3
    exact ⟨le_refl i, by simp, List.Forall₂.nil⟩
  | cons np rest ih =>
    obtain ⟨name, pr⟩ := np
    simp only [processFiles] at h
    cases hf : pr.files with
    | none =>
      rw [hf] at h
      cases hr : processFiles lfs base ns rest i with
      | none => rw [hr] at h; exact absurd h (by simp)
      | some out =>
        obtain ⟨es2, ps2, k⟩ := out
        rw [hr] at h
        simp only [Option.some_inj, Prod.mk.injEq] at h
        obtain ⟨he, hp, hj⟩ := h
        obtain ⟨hle, hnames, hall⟩ := ih i es2 ps2 k hr
        subst he hp hj
        refine ⟨hle, hnames, List.Forall₂.cons ⟨rfl, Or.inl ⟨hf, rfl⟩⟩ hall⟩
    | some files =>
      rw [hf] at h
      simp only at h
      cases hw : write_files lfs base ns files i with
      | none => rw [hw] at h; exact absurd h (by simp)
      | some out1 =>
        obtain ⟨es1, m1, j1⟩ := out1
        rw [hw] at h
        simp only at h
        cases hr : processFiles lfs base ns rest j1 with
        | none => rw [hr] at h; exact absurd h (by simp)
        | some out2 =>
          obtain ⟨es2, ps2, k⟩ := out2
          rw [hr] at h
          simp only [Option.some_inj, Prod.mk.injEq] at h
          obtain ⟨he, hp, hj⟩ := h
          obtain ⟨hj1, hnames1, hall1⟩ := write_files_spec lfs base ns files i es1 m1 j1 hw
          obtain ⟨hle2, hnames2, hall2⟩ := ih j1 es2 ps2 k hr
          subst he hp hj
          have hsub1 : ∀ e ∈ es1, e ∈ es1 ++ es2 := fun e he => List.mem_append_left _ he
          have hsub2 : ∀ e ∈ es2, e ∈ es1 ++ es2 := fun e he => List.mem_append_right _ he
          refine ⟨by omega, ?_, ?_⟩
          · rw [List.map_append, hnames1, hnames2, ← List.map_append]
            congr 1
            have harr := List.range'_append i files.length (k - j1) 1
            simp only [one_mul] at harr
            rw [← hj1] at harr
            rw [harr]
            congr 1
            omega
          · refine List.Forall₂.cons ⟨rfl, Or.inr ⟨files, m1, hf, rfl, ?_⟩⟩ ?_
            · exact hall1.imp (pairRel_mono lfs base es1 _ hsub1)
            · exact hall2.imp (procRel_mono lfs base es2 _ hsub2)

theorem to_binary_spec (lfs : String → Option (List Nat)) (base : String)
    (ns : Nat → String) (c c2 : CapsuleM) (h : to_binary lfs base ns c = some c2) :
    ∃ zip K, c2.fs = some zip ∧
      zip.map Prod.fst = (List.range' 0 K).map ns ∧
      c2.version = c.version ∧ c2.env = c.env ∧
      (match c.files with
       | none => c2.files = none
       | some files => ∃ m, c2.files = some m ∧
           List.Forall₂ (pairRel lfs base zip) files m) ∧
      (match c.processes with
       | none => c2.processes = none
       | some procs => ∃ ps, c2.processes = some ps ∧
           List.Forall₂ (procRel lfs base zip) procs ps) := by
  unfold to_binary at h
  cases hcf : c.files with
  | none =>
    rw [hcf] at h
    simp only at h
    cases hcp : c.processes with
    | none =>
      rw [hcp] at h
      simp only [Option.some_inj] at h
      subst h
      exact ⟨[], 0, rfl, by simp, rfl, rfl, rfl, rfl⟩
    | some procs =>
      rw [hcp] at h
      simp only at h
      cases hpf : processFiles lfs base ns procs 0 with
      | none => rw [hpf] at h; exact absurd h (by simp)
      | some out =>
        obtain ⟨es2, ps2, k⟩ := out
        rw [hpf] at h
        simp only [Option.some_inj] at h
        subst h
        obtain ⟨hle, hnames, hall⟩ := processFiles_spec lfs base ns procs 0 es2 ps2 k hpf
        exact ⟨es2, k - 0, rfl, hnames, rfl, rfl, rfl, ps2, rfl, hall⟩
  | some files =>
    rw [hcf] at h
    simp only at h
    cases hw : write_files lfs base ns files 0 with
    | none => rw [hw] at h; exact absurd h (by simp)
    | some out1 =>
      obtain ⟨es1, m1, i⟩ := out1
      rw [hw] at h
      simp only at h
      obtain ⟨hi, hnames1, hall1⟩ := write_files_spec lfs base ns files 0 es1 m1 i hw
      cases hcp : c.processes with
      | none =>
        rw [hcp] at h
        simp only [Option.some_inj] at h
        subst h
        refine ⟨es1, files.length, rfl, by simpa using hnames1, rfl, rfl,
          ⟨m1, rfl, hall1⟩, rfl⟩
      | some procs =>
        rw [hcp] at h
        simp only at h
        cases hpf : processFiles lfs base ns procs i with
        | none => rw [hpf] at h; exact absurd h (by simp)
        | some out2 =>
          obtain ⟨es2, ps2, k⟩ := out2
          rw [hpf] at h
          simp only [Option.some_inj] at h
          subst h
          obtain ⟨hle, hnames2, hall2⟩ := processFiles_spec lfs base ns procs i es2 ps2 k hpf
          have hsub1 : ∀ e ∈ es1, e ∈ es1 ++ es2 := fun e he => List.mem_append_left _ he
          have hsub2 : ∀ e ∈ es2, e ∈ es1 ++ es2 := fun e he => List.mem_append_right _ he
          refine ⟨es1 ++ es2, k, rfl, ?_, rfl, rfl,
            ⟨m1, rfl, hall1.imp (pairRel_mono lfs base es1 _ hsub1)⟩,
            ⟨ps2, rfl, hall2.imp (procRel_mono lfs base es2 _ hsub2)⟩⟩
          rw [List.map_append, hnames1, hnames2, ← List.map_append]
          congr 1
          have hi' : i = files.length := by omega
          subst hi'
          have harr := List.range'_append 0 files.length (k - files.length) 1
          simp only [one_mul, Nat.zero_add] at harr
          rw [harr]
          congr 1
          omega

theorem zipFind_of_nodup (zip : List (String × List Nat)) (nm : String) (b : List Nat)
    (hnd : (zip.map Prod.fst).Nodup) (hmem : (nm, b) ∈ zip) :
    zipFind zip nm = some b := by
  induction zip with
  | nil => cases hmem
  | cons e rest ih =>
    simp only [List.map_cons, List.nodup_cons] at hnd
    rcases List.mem_cons.1 hmem with heq | htail
    · subst heq
      simp [zipFind]
    · have hne : e.1 ≠ nm := by
        intro hcontra
        exact hnd.1 (hcontra ▸ List.mem_map_of_mem Prod.fst htail)
      have hne' : (e.1 == nm) = false := by simp [hne]
      simp only [zipFind, List.find?]
      rw [hne']
      exact ih hnd.2 htail

theorem lookupPath_eq (st : ExtractState) (p : List String) (b : List Nat)
    (hmem : (p, b) ∈ st.files) (huniq : ∀ e ∈ st.files, e.1 = p → e.2 = b) :
    lookupPath st p = some b := by
  obtain ⟨fsl, dirs⟩ := st
  simp only [lookupPath] at *
  induction fsl with
  | nil => cases hmem
  | cons e rest ih =>
    by_cases hep : e.1 = p
    · have hb : e.2 = b := huniq e (List.mem_cons_self _ _) hep
      simp [List.find?_cons, hep, hb]
    · have hep' : (e.1 == p) = false := by simp [hep]
      simp only [List.find?]
      rw [hep']
      rcases List.mem_cons.1 hmem with heq | htail
      · exact absurd (congrArg Prod.fst heq.symm) hep
      · exact ih htail (fun e' he' hp' => huniq e' (List.mem_cons_of_mem _ he') hp')

theorem extract_file_map_spec (zip : List (String × List Nat)) (root : List String)
    (fs : List (String × String)) (st st' : ExtractState)
    (h : extract_file_map zip root fs st = some st') :
    (∀ e ∈ st.files, e ∈ st'.files) ∧ (∀ d ∈ st.dirs, d ∈ st'.dirs) ∧
    (∀ ft ∈ fs, ∃ b, zipFind zip ft.1 = some b ∧ (pjoin root ft.2, b) ∈ st'.files) ∧
    (∀ e ∈ st'.files, e ∈ st.files ∨
      ∃ ft ∈ fs, e.1 = pjoin root ft.2 ∧ zipFind zip ft.1 = some e.2) := by
  induction fs generalizing st with
  | nil =>
    simp only [extract_file_map, Option.some_inj] at h
    subst h
    exact ⟨fun e he => he, fun d hd => hd, by simp, fun e he => Or.inl he⟩
  | cons ft rest ih =>
    obtain ⟨zipName, target⟩ := ft
    simp only [extract_file_map] at h
    cases hz : zipFind zip zipName with
    | none => rw [hz] at h; exact absurd h (by simp)
    | some bytes =>
      rw [hz] at h
      simp only at h
      obtain ⟨hmf, hmd, hwrites, horigin⟩ := ih _ h
      refine ⟨?_, ?_, ?_, ?_⟩
      · exact fun e he => hmf e (List.mem_cons_of_mem _ he)
      · exact fun d hd => hmd d (List.mem_cons_of_mem _ hd)
      · intro ft' hft'
        rcases List.mem_cons.1 hft' with heq | htail
        · subst heq
          exact ⟨bytes, hz, hmf _ (List.mem_cons_self _ _)⟩
        · obtain ⟨b, hb1, hb2⟩ := hwrites ft' htail
          exact ⟨b, hb1, hb2⟩
      · intro e he
        rcases horigin e he with hin | ⟨ft', hft', h1, h2⟩
        · rcases List.mem_cons.1 hin with heq | htail
          · subst heq
            exact Or.inr ⟨(zipName, target), List.mem_cons_self _ _, rfl, hz⟩
          · exact Or.inl htail
        · exact Or.inr ⟨ft', List.mem_cons_of_mem _ hft', h1, h2⟩

theorem extractProcs_spec (zip : List (String × List Nat)) (root : List String)
    (procs : List (String × ProcessM)) (st st' : ExtractState)
    (h : extractProcs zip root procs st = some st') :
    (∀ e ∈ st.files, e ∈ st'.files) ∧ (∀ d ∈ st.dirs, d ∈ st'.dirs) ∧
    (∀ np ∈ procs, pjoin root (np.2.cwd.getD np.1) ∈ st'.dirs) ∧
    (∀ np ∈ procs, ∀ ft ∈ np.2.files.getD [], ∃ b, zipFind zip ft.1 = some b ∧
      (pjoin [np.2.cwd.getD np.1] ft.2, b) ∈ st'.files) ∧
    (∀ e ∈ st'.files, e ∈ st.files ∨
      ∃ np ∈ procs, ∃ ft ∈ np.2.files.getD [],
        e.1 = pjoin [np.2.cwd.getD np.1] ft.2 ∧ zipFind zip ft.1 = some e.2) := by
  induction procs generalizing st with
  | nil =>
    simp only [extractProcs, Option.some_inj] at h
    subst h
    exact ⟨fun e he => he, fun d hd => hd, by simp, by simp, fun e he => Or.inl he⟩
  | cons np rest ih =>
    obtain ⟨name, pr⟩ := np
    simp only [extractProcs] at h
    cases hf : pr.files with
    | none =>
      rw [hf] at h
      obtain ⟨hmf, hmd, hdirs, hwrites, horigin⟩ := ih _ h
      refine ⟨fun e he => hmf e he,
        fun d hd => hmd d (List.mem_cons_of_mem _ hd), ?_, ?_, ?_⟩
      · intro np' hnp'
        rcases List.mem_cons.1 hnp' with heq | htail
        · subst heq
          exact hmd _ (List.mem_cons_self _ _)
        · exact hdirs np' htail
      · intro np' hnp' ft hft
        rcases List.mem_cons.1 hnp' with heq | htail
        · subst heq
          rw [hf] at hft
          cases hft
        · exact hwrites np' htail ft hft
      · intro e he
        rcases horigin e he with hin | ⟨np', hnp', hrest⟩
        · exact Or.inl hin
        · exact Or.inr ⟨np', List.mem_cons_of_mem _ hnp', hrest⟩
    | some files =>
      rw [hf] at h
      simp only at h
      cases hm : extract_file_map zip [pr.cwd.getD name] files
          { st with dirs := pjoin root (pr.cwd.getD name) :: st.dirs } with
      | none => rw [hm] at h; exact absurd h (by simp)
      | some st2 =>
        rw [hm] at h
        obtain ⟨hmf1, hmd1, hwrites1, horigin1⟩ := extract_file_map_spec _ _ _ _ _ hm
        obtain ⟨hmf2, hmd2, hdirs2, hwrites2, horigin2⟩ := ih _ h
        refine ⟨fun e he => hmf2 e (hmf1 e he),
          fun d hd => hmd2 d (hmd1 d (List.mem_cons_of_mem _ hd)), ?_, ?_, ?_⟩
        · intro np' hnp'
          rcases List.mem_cons.1 hnp' with heq | htail
          · subst heq
            exact hmd2 _ (hmd1 _ (List.mem_cons_self _ _))
          · exact hdirs2 np' htail
        · intro np' hnp' ft hft
          rcases List.mem_cons.1 hnp' with heq | htail
          · subst heq
            rw [hf] at hft
            simp only [Option.getD] at hft
            obtain ⟨b, hb1, hb2⟩ := hwrites1 ft hft
            exact ⟨b, hb1, hmf2 _ hb2⟩
          · exact hwrites2 np' htail ft hft
        · intro e he
          rcases horigin2 e he with hin2 | ⟨np', hnp', hrest⟩
          · rcases horigin1 e hin2 with hin1 | ⟨ft, hft, h1, h2⟩
            · exact Or.inl hin1
            · exact Or.inr ⟨(name, pr), List.mem_cons_self _ _,
                ft, by simp [hf, hft], h1, h2⟩
          · exact Or.inr ⟨np', List.mem_cons_of_mem _ hnp', hrest⟩

theorem extract_files_spec (root : List String) (c : CapsuleM) (st : ExtractState)
    (c2 : CapsuleM) (st2 : ExtractState) (zip : List (String × List Nat))
    (hfs : c.fs = some zip) (h : extract_files root c st = some (c2, st2)) :
    c2 = { c with fs := none } ∧
    (∀ ft ∈ c.files.getD [], ∃ b, zipFind zip ft.1 = some b ∧
      (pjoin root ft.2, b) ∈ st2.files) ∧
    (∀ np ∈ c.processes.getD [], pjoin root (np.2.cwd.getD np.1) ∈ st2.dirs) ∧
    (∀ np ∈ c.processes.getD [], ∀ ft ∈ np.2.files.getD [], ∃ b,
      zipFind zip ft.1 = some b ∧
      (pjoin [np.2.cwd.getD np.1] ft.2, b) ∈ st2.files) ∧
    (∀ e ∈ st2.files, e ∈ st.files ∨
      (∃ ft ∈ c.files.getD [], e.1 = pjoin root ft.2 ∧ zipFind zip ft.1 = some e.2) ∨
      (∃ np ∈ c.processes.getD [], ∃ ft ∈ np.2.files.getD [],
        e.1 = pjoin [np.2.cwd.getD np.1] ft.2 ∧ zipFind zip ft.1 = some e.2)) := by
  unfold extract_files at h
  rw [hfs] at h
  simp only at h
  cases hcf : c.files with
  | none =>
    rw [hcf] at h
    simp only at h
    cases hp : extractProcs zip root (c.processes.getD []) st with
    | none => rw [hp] at h; exact absurd h (by simp)
    | some st3 =>
      rw [hp] at h
      simp only [Option.some_inj, Prod.mk.injEq] at h
      obtain ⟨hc2, hst⟩ := h
      subst hc2 hst
      obtain ⟨hmf, hmd, hdirs, hwrites, horigin⟩ := extractProcs_spec _ _ _ _ _ hp
      refine ⟨rfl, by simp, hdirs, hwrites, ?_⟩
      intro e he
      rcases horigin e he with hin | hout
      · exact Or.inl hin
      · exact Or.inr (Or.inr hout)
  | some files =>
    rw [hcf] at h
    simp only at h
    cases hg : extract_file_map zip root files st with
    | none => rw [hg] at h; exact absurd h (by simp)
    | some st1 =>
      rw [hg] at h
      simp only at h
      cases hp : extractProcs zip root (c.processes.getD []) st1 with
      | none => rw [hp] at h; exact absurd h (by simp)
      | some st3 =>
        rw [hp] at h
        simp only [Option.some_inj, Prod.mk.injEq] at h
        obtain ⟨hc2, hst⟩ := h
        subst hc2 hst
        obtain ⟨hmf1, hmd1, hwrites1, horigin1⟩ := extract_file_map_spec _ _ _ _ _ hg
        obtain ⟨hmf2, hmd2, hdirs2, hwrites2, horigin2⟩ := extractProcs_spec _ _ _ _ _ hp
        refine ⟨rfl, ?_, hdirs2, hwrites2, ?_⟩
        · intro ft hft
          obtain ⟨b, hb1, hb2⟩ := hwrites1 ft hft
          exact ⟨b, hb1, hmf2 _ hb2⟩
        · intro e he
          rcases horigin2 e he with hin2 | hout
          · rcases horigin1 e hin2 with hin1 | ⟨ft, hft, h1, h2⟩
            · exact Or.inl hin1
            · exact Or.inr (Or.inl ⟨ft, hft, h1, h2⟩)
          · exact Or.inr (Or.inr hout)

theorem forall₂_mem_left {α β : Type} {R : α → β → Prop} {l1 : List α} {l2 : List β}
    (h : List.Forall₂ R l1 l2) : ∀ a ∈ l1, ∃ b ∈ l2, R a b := by
  induction h with
  | nil => intro a ha; cases ha
  | cons hr _ ih =>
    intro a ha
    rcases List.mem_cons.1 ha with heq | htail
    · subst heq
      exact ⟨_, List.mem_cons_self _ _, hr⟩
    · obtain ⟨b, hb, hrb⟩ := ih a htail
      exact ⟨b, List.mem_cons_of_mem _ hb, hrb⟩

theorem uniq_of_nodup_keys {α β : Type} (l : List (α × β))
    (h : (l.map Prod.fst).Nodup) (p : α) (b : β) (hm : (p, b) ∈ l) :
    ∀ e ∈ l, e.1 = p → e.2 = b := by
  induction l with
  | nil => cases hm
  | cons e0 rest ih =>
    simp only [List.map_cons, List.nodup_cons] at h
    intro e he hep
    rcases List.mem_cons.1 hm with hm0 | hmt
    · rcases List.mem_cons.1 he with he0 | het
      · subst he0
        rw [← hm0]
      · have hp0 : e0.1 = p := (congrArg Prod.fst hm0).symm
        have hmem : e0.1 ∈ List.map Prod.fst rest := by
          rw [hp0, ← hep]
          exact List.mem_map_of_mem Prod.fst het
        exact absurd hmem h.1
    · rcases List.mem_cons.1 he with he0 | het
      · subst he0
        have hmem : e.1 ∈ List.map Prod.fst rest := by
          rw [hep]
          exact List.mem_map_of_mem Prod.fst hmt
        exact absurd hmem h.1
      · exact ih h.2 hmt e het hep

theorem zipSerialize_ne_nil (es : List (String × List Nat)) : zipSerialize es ≠ [] := by
  cases es with
  | nil =>
    simp [zipSerialize, eocd]
  | cons e rest =>
    simp [zipSerialize, zipEntryBytes]

theorem processFiles_empty (lfs : String → Option (List Nat)) (base : String)
    (ns : Nat → String) (procs : List (String × ProcessM)) (i : Nat)
    (es : List (String × List Nat)) (ps : List (String × ProcessM)) (j : Nat)
    (hp : ∀ np ∈ procs, np.2.files.getD [] = [])
    (h : processFiles lfs base ns procs i = some (es, ps, j)) : es = [] := by
  induction procs generalizing i es ps j with
  | nil =>
    simp only [processFiles, Option.some_inj, Prod.mk.injEq] at h
    exact h.1.symm
  | cons np rest ih =>
    obtain ⟨name, pr⟩ := np
    simp only [processFiles] at h
    cases hf : pr.files with
    | none =>
      rw [hf] at h
      cases hr : processFiles lfs base ns rest i with
      | none => rw [hr] at h; exact absurd h (by simp)
      | some out =>
        obtain ⟨es2, ps2, k⟩ := out
        rw [hr] at h
        simp only [Option.some_inj, Prod.mk.injEq] at h
        rw [← h.1]
        exact ih i es2 ps2 k (fun np' hnp' => hp np' (List.mem_cons_of_mem _ hnp')) hr
    | some files =>
      have hfe : files = [] := by
        have := hp (name, pr) (List.mem_cons_self _ _)
        simpa [hf] using this
      subst hfe
      rw [hf] at h
      simp only [write_files] at h
      cases hr : processFiles lfs base ns rest i with
      | none => rw [hr] at h; exact absurd h (by simp)
      | some out =>
        obtain ⟨es2, ps2, k⟩ := out
        rw [hr] at h
        simp only [Option.some_inj, Prod.mk.injEq] at h
        rw [← h.1]
        simpa using ih i es2 ps2 k (fun np' hnp' => hp np' (List.mem_cons_of_mem _ hnp')) hr

theorem to_binary_fs_of_empty (lfs : String → Option (List Nat)) (base : String)
    (ns : Nat → String) (c c2 : CapsuleM)
    (hg : c.files.getD [] = [])
    (hp : ∀ np ∈ c.processes.getD [], np.2.files.getD [] = [])
    (h : to_binary lfs base ns c = some c2) : c2.fs = some [] := by
  unfold to_binary at h
  cases hcf : c.files with
  | none =>
    rw [hcf] at h
    simp only at h
    cases hcp : c.processes with
    | none =>
      rw [hcp] at h
      simp only [Option.some_inj] at h
      subst h
      rfl
    | some procs =>
      rw [hcp] at h
      simp only at h
      cases hpf : processFiles lfs base ns procs 0 with
      | none => rw [hpf] at h; exact absurd h (by simp)
      | some out =>
        obtain ⟨es2, ps2, k⟩ := out
        rw [hpf] at h
        simp only [Option.some_inj] at h
        subst h
        have : es2 = [] := processFiles_empty lfs base ns procs 0 es2 ps2 k
          (by simpa [hcp] using hp) hpf
        simp [this]
  | some files =>
    have hfe : files = [] := by simpa [hcf] using hg
    subst hfe
    rw [hcf] at h
    simp only [write_files] at h
    cases hcp : c.processes with
    | none =>
      rw [hcp] at h
      simp only [Option.some_inj] at h
      subst h
      rfl
    | some procs =>
      rw [hcp] at h
      simp only at h
      cases hpf : processFiles lfs base ns procs 0 with
      | none => rw [hpf] at h; exact absurd h (by simp)
      | some out =>
        obtain ⟨es2, ps2, k⟩ := out
        rw [hpf] at h
        simp only [Option.some_inj] at h
        subst h
        have : es2 = [] := processFiles_empty lfs base ns procs 0 es2 ps2 k
          (by simpa [hcp] using hp) hpf
        simp [this]

/-- C6 counterexample: a capsule with no file mappings at all still gets
`fs` populated by `to_binary` (with the empty archive, whose byte
serialization — the end-of-central-directory record — is non-empty), so
"`fs` populated and non-empty iff some `files` mapping is non-empty" fails. -/
theorem C6_counterexample :
    to_binary (fun _ => none) "" (fun _ => "u") { version := "1.0.0" } =
      some { version := "1.0.0", fs := some [] } ∧
    zipSerialize [] ≠ [] := by
  exact ⟨rfl, by decide⟩

/-- C6 (amended): after packaging, `fs` is always populated, and its byte
serialization is always non-empty (the end-of-central-directory record is
present even for an empty archive); the archive holds entries iff some
`files` mapping (global or per-process) is non-empty. -/
theorem C6_fs_always_populated (lfs : String → Option (List Nat)) (base : String)
    (ns : Nat → String) (c c2 : CapsuleM) (h : to_binary lfs base ns c = some c2) :
    ∃ zip, c2.fs = some zip ∧ zipSerialize zip ≠ [] ∧
      (zip = [] ↔ (c.files.getD [] = [] ∧
        ∀ np ∈ c.processes.getD [], np.2.files.getD [] = [])) := by
  obtain ⟨zip, K, hfs, hnames, hv, he, hfrel, hprel⟩ := to_binary_spec lfs base ns c c2 h
  refine ⟨zip, hfs, zipSerialize_ne_nil zip, ?_, ?_⟩
  · intro hz
    subst hz
    constructor
    · cases hcf : c.files with
      | none => rfl
      | some files =>
        rw [hcf] at hfrel
        obtain ⟨m, hm, hall⟩ := hfrel
        cases files with
        | nil => rfl
        | cons ft rest =>
          obtain ⟨nm, hnm, _, b, _, hmem⟩ :=
            forall₂_mem_left hall ft (List.mem_cons_self _ _)
          cases hmem
    · intro np hnp
      cases hcp : c.processes with
      | none => rw [hcp] at hnp; cases hnp
      | some procs =>
        rw [hcp] at hprel hnp
        obtain ⟨ps, hps, hall⟩ := hprel
        obtain ⟨np2, _, _, hrest⟩ := forall₂_mem_left hall np hnp
        rcases hrest with ⟨hn, _⟩ | ⟨files, m, hf, _, hallf⟩
        · simp [hn]
        · cases files with
          | nil => simp [hf]
          | cons ft rest =>
            obtain ⟨nm, hnm, _, b, _, hmem⟩ :=
              forall₂_mem_left hallf ft (List.mem_cons_self _ _)
            cases hmem
  · intro ⟨hg, hp⟩
    have := to_binary_fs_of_empty lfs base ns c c2 hg hp h
    rw [hfs] at this
    exact Option.some_inj.1 this

/-- Witness for C6 at a capsule with one global file. -/
theorem C6_fs_always_populated_witness :
    ∃ zip, c6packed.fs = some zip ∧ zipSerialize zip ≠ [] ∧
      (zip = [] ↔ (c6decl.files.getD [] = [] ∧
        ∀ np ∈ c6decl.processes.getD [], np.2.files.getD [] = [])) :=
  C6_fs_always_populated (fun p => if p = "/c/a.txt" then some [9] else none) "/c"
    (fun _ => "u") c6decl c6packed rfl

/-- C7 counterexample: extracting `c7caps` writes the process file at
`w/t` — relative to the supervisor's current directory — and creates
`.capsule/w`, but writes nothing under `.capsule/w/t`: the per-process
extraction base is the raw cwd, not `root/cwd`. -/
theorem C7_counterexample :
    extract_files [".capsule"] c7caps ⟨[], []⟩ =
      some ({ c7caps with fs := none },
        ⟨[(["w", "t"], [1, 2, 3])], [["w"], [".capsule", "w"]]⟩) ∧
    (["w", "t"] : List String) ≠ [".capsule", "w", "t"] ∧
    lookupPath ⟨[(["w", "t"], [1, 2, 3])], [["w"], [".capsule", "w"]]⟩
      [".capsule", "w", "t"] = none := by
  refine ⟨rfl, by decide, rfl⟩

/-- C7 (amended): during extraction, for every process P the directory
`root/(P.cwd or P.name)` is created recursively, but every entry of P's file
mapping is extracted to `(P.cwd or P.name)/target` — the per-process base is
the raw process-cwd (resolved against the supervisor's current directory),
not the process-cwd inside the extraction root. -/
theorem C7_process_extraction (root : List String) (c : CapsuleM)
    (st : ExtractState) (c2 : CapsuleM) (st2 : ExtractState)
    (zip : List (String × List Nat)) (hfs : c.fs = some zip)
    (h : extract_files root c st = some (c2, st2)) :
    (∀ np ∈ c.processes.getD [], pjoin root (np.2.cwd.getD np.1) ∈ st2.dirs) ∧
    (∀ np ∈ c.processes.getD [], ∀ ft ∈ np.2.files.getD [], ∃ b,
      zipFind zip ft.1 = some b ∧
      (pjoin [np.2.cwd.getD np.1] ft.2, b) ∈ st2.files) := by
  obtain ⟨_, _, hdirs, hwrites, _⟩ := extract_files_spec root c st c2 st2 zip hfs h
  exact ⟨hdirs, hwrites⟩

/-- Witness for C7 at the concrete one-process capsule. -/
theorem C7_process_extraction_witness :
    pjoin [".capsule"] "w" ∈ ([["w"], [".capsule", "w"]] : List (List String)) ∧
    ∃ b, zipFind [("u", [1, 2, 3])] "u" = some b ∧
      ((pjoin ["w"] "t", b) ∈ ([(["w", "t"], [1, 2, 3])] : List (List String × List Nat))) := by
  have h := C7_process_extraction [".capsule"] c7caps ⟨[], []⟩
    { c7caps with fs := none }
    ⟨[(["w", "t"], [1, 2, 3])], [["w"], [".capsule", "w"]]⟩
    [("u", [1, 2, 3])] rfl rfl
  exact ⟨h.1 ("p", { cmd := "x", cwd := some "w", files := some [("u", "t")] })
      (by simp [c7caps]),
    h.2 ("p", { cmd := "x", cwd := some "w", files := some [("u", "t")] })
      (by simp [c7caps]) ("u", "t") (by simp)⟩

/-- C2 counterexample: packaging `c2decl` and extracting the result writes the
process file (byte-identical) at `w/t`, while nothing exists at
`.capsule/w/t` — the location the claim requires for per-process entries. -/
theorem C2_counterexample :
    to_binary c2lfs "/c" (fun _ => "u") c2decl = some c2packed ∧
    extract_files [".capsule"] c2packed ⟨[], []⟩ =
      some ({ c2packed with fs := none },
        ⟨[(["w", "t"], [9])], [["w"], [".capsule", "w"]]⟩) ∧
    lookupPath ⟨[(["w", "t"], [9])], [["w"], [".capsule", "w"]]⟩
      [".capsule", "w", "t"] = none :=
  ⟨rfl, rfl, rfl⟩

/-- C2 (amended): packaging a capsule and then extracting the produced binary
yields, for every declared `source → target` pair, a write of exactly the
source's bytes at `root/target` for global entries and at
`process-cwd/target` (relative to the supervisor's current directory, not
inside the extraction root) for per-process entries — under a collision-free
identifier stream and pairwise-distinct extracted paths. -/
theorem C2_pack_extract_roundtrip (lfs : String → Option (List Nat)) (base : String)
    (ns : Nat → String) (hinj : Function.Injective ns)
    (c c2 c3 : CapsuleM) (st2 : ExtractState) (root : List String)
    (hpack : to_binary lfs base ns c = some c2)
    (hext : extract_files root c2 ⟨[], []⟩ = some (c3, st2))
    (hW : (st2.files.map Prod.fst).Nodup) :
    (∀ ft ∈ c.files.getD [], ∃ b, lfs (resolve base ft.1) = some b ∧
      lookupPath st2 (pjoin root ft.2) = some b) ∧
    (∀ np ∈ c.processes.getD [], ∀ ft ∈ np.2.files.getD [], ∃ b,
      lfs (resolve base ft.1) = some b ∧
      lookupPath st2 (pjoin [np.2.cwd.getD np.1] ft.2) = some b) := by
  obtain ⟨zip, K, hfs, hnames, hv, he, hfrel, hprel⟩ := to_binary_spec lfs base ns c c2 hpack
  have hznd : (zip.map Prod.fst).Nodup := by
    rw [hnames]
    exact List.Nodup.map hinj (by simp [List.nodup_range'])
  obtain ⟨_, hgw, hdirs, hpw, _⟩ := extract_files_spec root c2 ⟨[], []⟩ c3 st2 zip hfs hext
  constructor
  · intro ft hft
    cases hcf : c.files with
    | none => rw [hcf] at hft; cases hft
    | some files =>
      rw [hcf] at hfrel
      obtain ⟨m, hm, hall⟩ := hfrel
      rw [hcf] at hft
      simp only [Option.getD] at hft
      obtain ⟨nm, hnm, htgt, b, hlfs, hzmem⟩ := forall₂_mem_left hall ft hft
      have hnm' : nm ∈ c2.files.getD [] := by rw [hm]; simpa using hnm
      obtain ⟨b', hb'find, hb'mem⟩ := hgw nm hnm'
      have hbfind : zipFind zip nm.1 = some b := zipFind_of_nodup zip nm.1 b hznd hzmem
      have hbb : b' = b := by
        rw [hbfind] at hb'find
        exact (Option.some_inj.1 hb'find).symm
      subst hbb
      refine ⟨b', hlfs, ?_⟩
      rw [← htgt]
      exact lookupPath_eq st2 (pjoin root nm.2) b' hb'mem
        (uniq_of_nodup_keys st2.files hW _ b' hb'mem)
  · intro np hnp ft hft
    cases hcp : c.processes with
    | none => rw [hcp] at hnp; cases hnp
    | some procs =>
      rw [hcp] at hprel
      obtain ⟨ps, hps, hall⟩ := hprel
      rw [hcp] at hnp
      simp only [Option.getD] at hnp
      obtain ⟨np2, hnp2, hname, hrest⟩ := forall₂_mem_left hall np hnp
      rcases hrest with ⟨hfnone, _⟩ | ⟨files, m', hfsome, hc2p, hallf⟩
      · rw [hfnone] at hft
        cases hft
      · rw [hfsome] at hft
        simp only [Option.getD] at hft
        obtain ⟨nm, hnm, htgt, b, hlfs, hzmem⟩ := forall₂_mem_left hallf ft hft
        have hnp2mem : np2 ∈ c2.processes.getD [] := by rw [hps]; simpa using hnp2
        have hnmmem : nm ∈ np2.2.files.getD [] := by rw [hc2p]; simpa using hnm
        obtain ⟨b', hb'find, hb'mem⟩ := hpw np2 hnp2mem nm hnmmem
        have hbfind : zipFind zip nm.1 = some b := zipFind_of_nodup zip nm.1 b hznd hzmem
        have hbb : b' = b := by
          rw [hbfind] at hb'find
          exact (Option.some_inj.1 hb'find).symm
        subst hbb
        have hpath : pjoin [np2.2.cwd.getD np2.1] nm.2 =
            pjoin [np.2.cwd.getD np.1] ft.2 := by
          rw [hc2p, hname, htgt]
        refine ⟨b', hlfs, ?_⟩
        rw [← hpath]
        exact lookupPath_eq st2 (pjoin [np2.2.cwd.getD np2.1] nm.2) b' hb'mem
          (uniq_of_nodup_keys st2.files hW _ b' hb'mem)

theorem uuidSeq_injective : Function.Injective uuidSeq := by
  intro a b h
  have hl := congrArg (fun s => s.data.length) h
  simpa [uuidSeq] using hl

/-- Witness for C2 at the concrete one-process capsule: the packed-then
extracted file at `w/t` holds exactly the source bytes of `/c/a.txt`. -/
theorem C2_pack_extract_roundtrip_witness :
    c2lfs (resolve "/c" "a.txt") = some [9] ∧
    lookupPath ⟨[(["w", "t"], [9])], [["w"], [".capsule", "w"]]⟩
      (pjoin ["w"] "t") = some [9] := by
  obtain ⟨b, hb1, hb2⟩ := (C2_pack_extract_roundtrip c2lfs "/c" uuidSeq uuidSeq_injective
    c2decl c2packedU { c2packedU with fs := none }
    ⟨[(["w", "t"], [9])], [["w"], [".capsule", "w"]]⟩ [".capsule"]
    rfl rfl (by simp)).2
    ("p", { cmd := "x", cwd := some "w", files := some [("a.txt", "t")] })
    (by simp [c2decl]) ("a.txt", "t") (by simp)
  have hb : b = [9] := by
    have hsome : some b = some [9] := by rw [← hb1]; rfl
    exact Option.some_inj.1 hsome
  subst hb
  exact ⟨hb1, hb2⟩

end Capsules
